import Mathlib

/-!
Verification development for the SudACO repository: a shallow embedding of
the bitset-based constraint-propagation substrate (constraintpropagation.cpp)
and of the multi-colony DCM-ACO driver (multicolonyantsystem.cpp) together
with the solver facade (solver_api.cpp), and theorems settling the frozen
claims about them.

Machine floats are embedded as real numbers, machine ints as Nat/Int.
The recursive propagation engine is embedded with an explicit fuel
parameter; every cross-call in the mutual recursion consumes one unit of
fuel, and each theorem about it holds for every fuel value that lets the
guarded branch fire.
-/

/-!
ValueSet. The file valueset.h is not part of src/; only its uses are.
Modelled from the spec: a ValueSet is a compact subset of the N-bit
universe, value v (1-based) corresponding to bit v-1; here a set is a
Finset of 0-based bit positions. The operators + (union), - (set
difference) and ~ (complement restricted to the N-bit universe) follow
the words of the spec directly. The spec names the fourth operator, the
one written x ^ y in the source, "XOR"; but Rule 1 of the spec (S-prime
equals S minus F), the CP soundness property, scenario S2 and the header
comment of constraintpropagation.h ("Remove values fixed in same
row/column/box") all require x ^ y to behave as set intersection at the
single place the source applies it (the cell is intersected with the
complement of the fixed peer values), and with the symmetric-difference
reading a blank puzzle would empty every cell during the initial pass.
It is therefore modelled as intersection, written directly with the
Finset intersection below.
-/

/-- Fixed means exactly one bit set. -/
def vsFixed (s : Finset ℕ) : Prop := s.card = 1

instance (s : Finset ℕ) : Decidable (vsFixed s) := by
  unfold vsFixed; infer_instance

/-- Boolean form of vsFixed, used inside board comparison code. -/
def vsFixedB (s : Finset ℕ) : Bool := s.card == 1

/-- Index returns the position of the single bit of a fixed set (0-based).
On a singleton set it is that element; on other sets its value is
unspecified in the source, and the sum is a convenient total extension. -/
def vsIndex (s : Finset ℕ) : ℕ := s.sum id

/-- The N-bit universe of a ValueSet. -/
def vsUniv (n : ℕ) : Finset ℕ := Finset.range n

/-- Complement within the N-bit universe (the operator written ~x). -/
def vsCompl (n : ℕ) (s : Finset ℕ) : Finset ℕ := vsUniv n \ s

/-!
Board. The implementation file of class Board is not part of src/ (only
board.h is). Modelled from the spec: cells is a contiguous sequence of C
ValueSets in row-major order, with order k, unit size N = k*k and the two
running counters. SetCellDirect writes a cell raw; the fixed and
infeasible counters are incremented by the callers in
constraintpropagation.cpp (IncrementFixedCells, IncrementInfeasible).
-/

structure Board where
  order : ℕ
  cells : List (Finset ℕ)
  numFixedCells : ℕ
  numInfeasible : ℕ
deriving DecidableEq

/-- Unit size N = order squared. -/
def Board.numUnits (b : Board) : ℕ := b.order * b.order

/-- Number of cells of the board (the length of the cell sequence). -/
def Board.cellCount (b : Board) : ℕ := b.cells.length

/-- Cell accessor; out-of-range reads yield the empty set. -/
def Board.getCell (b : Board) (i : ℕ) : Finset ℕ := b.cells.getD i ∅

/-- Raw cell write, no counter maintenance (SetCellDirect). -/
def Board.setCellDirect (b : Board) (i : ℕ) (v : Finset ℕ) : Board :=
  { b with cells := b.cells.set i v }

/-- IncrementFixedCells. -/
def Board.incrementFixedCells (b : Board) : Board :=
  { b with numFixedCells := b.numFixedCells + 1 }

/-- IncrementInfeasible. -/
def Board.incrementInfeasible (b : Board) : Board :=
  { b with numInfeasible := b.numInfeasible + 1 }

/-!
Unit geometry. Modelled from the spec: functions yielding the cell index
of the j-th member of row i, column i, or box i, and the inverse maps;
boxes tile the N x N grid as k x k blocks.
-/

/-- Cell index of the j-th member of row i (unit size n). -/
def rowCell (n i j : ℕ) : ℕ := i * n + j

/-- Cell index of the j-th member of column i (unit size n). -/
def colCell (n i j : ℕ) : ℕ := j * n + i

/-- Cell index of the j-th member of box i (order k, unit size k*k). -/
def boxCell (k i j : ℕ) : ℕ :=
  ((i / k) * k + j / k) * (k * k) + (i % k) * k + j % k

/-- Row of a cell (unit size n). -/
def rowForCell (n c : ℕ) : ℕ := c / n

/-- Column of a cell (unit size n). -/
def colForCell (n c : ℕ) : ℕ := c % n

/-- Box of a cell (order k). -/
def boxForCell (k c : ℕ) : ℕ :=
  (c / (k * k) / k) * k + (c % (k * k)) / k

/-!
Constraint propagation, from constraintpropagation.cpp. The CP timing
telemetry (atomic time accumulators and the call counter) has no effect
on any board and is not modelled.
-/

/-- Union of the fixed peers of cellIndex along one unit, as the source
accumulates it: a loop over the member index j, skipping cellIndex and
non-fixed cells. -/
def fixedUnionUnit (b : Board) (cellIndex : ℕ) (unitCell : ℕ → ℕ) : Finset ℕ :=
  (List.range b.numUnits).foldl
    (fun acc j =>
      let k := unitCell j
      if k ≠ cellIndex ∧ vsFixed (b.getCell k) then acc ∪ b.getCell k else acc) ∅

/-- Union of all peers of cellIndex along one unit (Rule 2 candidate
union): same loop without the fixedness filter. -/
def allUnionUnit (b : Board) (cellIndex : ℕ) (unitCell : ℕ → ℕ) : Finset ℕ :=
  (List.range b.numUnits).foldl
    (fun acc j =>
      let k := unitCell j
      if k ≠ cellIndex then acc ∪ b.getCell k else acc) ∅

mutual

/-- Rule1_Elimination. Returns the updated board and whether a value was
committed. Commits the complement of the union of the fixed peer values
when that complement is a singleton, else intersects the cell with it
(the operator written cell ^ constraint in the source). -/
def rule1 : ℕ → Board → ℕ → Board × Bool
  | 0, b, _ => (b, false)
  | fuel + 1, b, cellIndex =>
    let cell := b.getCell cellIndex
    if cell = ∅ ∨ vsFixed cell then (b, false)
    else
      let k := b.order
      let n := b.numUnits
      let iBox := boxForCell k cellIndex
      let iCol := colForCell n cellIndex
      let iRow := rowForCell n cellIndex
      let boxFixed := fixedUnionUnit b cellIndex (boxCell k iBox)
      let colFixed := fixedUnionUnit b cellIndex (colCell n iCol)
      let rowFixed := fixedUnionUnit b cellIndex (rowCell n iRow)
      let fixedCellsConstraint := vsCompl n (rowFixed ∪ colFixed ∪ boxFixed)
      if vsFixed fixedCellsConstraint then
        (setCellAndPropagate fuel b cellIndex fixedCellsConstraint, true)
      else
        (b.setCellDirect cellIndex (cell ∩ fixedCellsConstraint), false)
termination_by structural fuel b i => fuel

/-- Rule2_HiddenSingle. Tie-break order row, column, box. -/
def rule2 : ℕ → Board → ℕ → Board × Bool
  | 0, b, _ => (b, false)
  | fuel + 1, b, cellIndex =>
    let cell := b.getCell cellIndex
    if cell = ∅ ∨ vsFixed cell then (b, false)
    else
      let k := b.order
      let n := b.numUnits
      let iBox := boxForCell k cellIndex
      let iCol := colForCell n cellIndex
      let iRow := rowForCell n cellIndex
      let boxAll := allUnionUnit b cellIndex (boxCell k iBox)
      let colAll := allUnionUnit b cellIndex (colCell n iCol)
      let rowAll := allUnionUnit b cellIndex (rowCell n iRow)
      if vsFixed (cell \ rowAll) then
        (setCellAndPropagate fuel b cellIndex (cell \ rowAll), true)
      else if vsFixed (cell \ colAll) then
        (setCellAndPropagate fuel b cellIndex (cell \ colAll), true)
      else if vsFixed (cell \ boxAll) then
        (setCellAndPropagate fuel b cellIndex (cell \ boxAll), true)
      else (b, false)
termination_by structural fuel b i => fuel

/-- PropagateConstraints. Runs Rule 1; if it committed, done; else Rule 2;
if the cell ends up empty the infeasible counter is incremented. -/
def propagateConstraints : ℕ → Board → ℕ → Board
  | 0, b, _ => b
  | fuel + 1, b, cellIndex =>
    let cell := b.getCell cellIndex
    if cell = ∅ ∨ vsFixed cell then b
    else
      let r1 := rule1 fuel b cellIndex
      if r1.2 then r1.1
      else
        let r2 := rule2 fuel r1.1 cellIndex
        if r2.1.getCell cellIndex = ∅ then r2.1.incrementInfeasible else r2.1
termination_by structural fuel b i => fuel

/-- SetCellAndPropagate. A cell that is already fixed is left untouched;
otherwise the value is written, the fixed counter incremented, and every
peer of the cell (box, column, row member for each j, in source order)
is re-propagated. -/
def setCellAndPropagate : ℕ → Board → ℕ → Finset ℕ → Board
  | fuel, b, cellIndex, value =>
    if vsFixed (b.getCell cellIndex) then b
    else
      let b1 := (b.setCellDirect cellIndex value).incrementFixedCells
      match fuel with
      | 0 => b1
      | fuel + 1 =>
        let k := b1.order
        let n := b1.numUnits
        let iBox := boxForCell k cellIndex
        let iCol := colForCell n cellIndex
        let iRow := rowForCell n cellIndex
        (List.range n).foldl
          (fun acc j =>
            let acc1 := if boxCell k iBox j ≠ cellIndex
              then propagateConstraints fuel acc (boxCell k iBox j) else acc
            let acc2 := if colCell n iCol j ≠ cellIndex
              then propagateConstraints fuel acc1 (colCell n iCol j) else acc1
            if rowCell n iRow j ≠ cellIndex
              then propagateConstraints fuel acc2 (rowCell n iRow j) else acc2)
          b1
termination_by structural fuel b i v => fuel

end

/-!
Helper lemmas about the board primitives and the peer-union folds.
-/

/-- Reading back the cell just written by setCellDirect. -/
lemma getCell_setCellDirect_self (b : Board) (i : ℕ) (v : Finset ℕ)
    (h : i < b.cellCount) : (b.setCellDirect i v).getCell i = v := by
  unfold Board.setCellDirect Board.getCell Board.cellCount at *
  simp [List.getD_eq_getElem?_getD, List.getElem?_set_self, h]

/-- Membership in a skip-and-union fold, for arbitrary filter and source. -/
lemma mem_unionFoldl (p : ℕ → Prop) [DecidablePred p] (f : ℕ → Finset ℕ) :
    ∀ (l : List ℕ) (acc : Finset ℕ) (x : ℕ),
      x ∈ l.foldl (fun a j => if p j then a ∪ f j else a) acc ↔
        x ∈ acc ∨ ∃ j ∈ l, p j ∧ x ∈ f j := by
  intro l
  induction l with
  | nil => intro acc x; simp
  | cons j t ih =>
    intro acc x
    by_cases hj : p j
    · simp only [List.foldl_cons, if_pos hj, ih, Finset.mem_union, List.mem_cons]
      constructor
      · rintro ((h | h) | ⟨j2, hj2, hp2, hx2⟩)
        · exact Or.inl h
        · exact Or.inr ⟨j, Or.inl rfl, hj, h⟩
        · exact Or.inr ⟨j2, Or.inr hj2, hp2, hx2⟩
      · rintro (h | ⟨j2, (rfl | hj2), hp2, hx2⟩)
        · exact Or.inl (Or.inl h)
        · exact Or.inl (Or.inr hx2)
        · exact Or.inr ⟨j2, hj2, hp2, hx2⟩
    · simp only [List.foldl_cons, if_neg hj, ih, List.mem_cons]
      constructor
      · rintro (h | ⟨j2, hj2, hp2, hx2⟩)
        · exact Or.inl h
        · exact Or.inr ⟨j2, Or.inr hj2, hp2, hx2⟩
      · rintro (h | ⟨j2, (rfl | hj2), hp2, hx2⟩)
        · exact Or.inl h
        · exact absurd hp2 hj
        · exact Or.inr ⟨j2, hj2, hp2, hx2⟩

/-- Membership in the fixed-peer union along one unit. -/
lemma mem_fixedUnionUnit (b : Board) (i : ℕ) (u : ℕ → ℕ) (x : ℕ) :
    x ∈ fixedUnionUnit b i u ↔
      ∃ j < b.numUnits, u j ≠ i ∧ vsFixed (b.getCell (u j)) ∧ x ∈ b.getCell (u j) := by
  unfold fixedUnionUnit
  rw [mem_unionFoldl (fun j => u j ≠ i ∧ vsFixed (b.getCell (u j)))
        (fun j => b.getCell (u j))]
  simp only [Finset.not_mem_empty, false_or, List.mem_range]
  constructor
  · rintro ⟨j, hj, ⟨hne, hfix⟩, hx⟩; exact ⟨j, hj, hne, hfix, hx⟩
  · rintro ⟨j, hj, hne, hfix, hx⟩; exact ⟨j, hj, ⟨hne, hfix⟩, hx⟩

/-- The set F of Rule 1: the union of the fixed values of all peers of the
cell along its row, column and box, accumulated exactly as the source does. -/
def peersFixedUnion (b : Board) (cellIndex : ℕ) : Finset ℕ :=
  fixedUnionUnit b cellIndex (rowCell b.numUnits (rowForCell b.numUnits cellIndex)) ∪
  fixedUnionUnit b cellIndex (colCell b.numUnits (colForCell b.numUnits cellIndex)) ∪
  fixedUnionUnit b cellIndex (boxCell b.order (boxForCell b.order cellIndex))

/-- Membership in peersFixedUnion: a value is in F exactly when some peer
of the cell (a row, column or box member other than the cell itself) is
fixed and holds that value. -/
lemma mem_peersFixedUnion (b : Board) (i x : ℕ) :
    x ∈ peersFixedUnion b i ↔
      ∃ j < b.numUnits, ∃ kk,
        (kk = rowCell b.numUnits (rowForCell b.numUnits i) j ∨
         kk = colCell b.numUnits (colForCell b.numUnits i) j ∨
         kk = boxCell b.order (boxForCell b.order i) j) ∧
        kk ≠ i ∧ vsFixed (b.getCell kk) ∧ x ∈ b.getCell kk := by
  unfold peersFixedUnion
  simp only [Finset.mem_union, mem_fixedUnionUnit]
  constructor
  · rintro ((⟨j, hj, h⟩ | ⟨j, hj, h⟩) | ⟨j, hj, h⟩)
    · exact ⟨j, hj, _, Or.inl rfl, h⟩
    · exact ⟨j, hj, _, Or.inr (Or.inl rfl), h⟩
    · exact ⟨j, hj, _, Or.inr (Or.inr rfl), h⟩
  · rintro ⟨j, hj, kk, (rfl | rfl | rfl), h⟩
    · exact Or.inl (Or.inl ⟨j, hj, h⟩)
    · exact Or.inl (Or.inr ⟨j, hj, h⟩)
    · exact Or.inr ⟨j, hj, h⟩

/-- Concrete order-2 board refuting claim C1: the target cell 0 has
candidate set {0,1}, its fixed peers carry {0},{1},{2}, so F = {0,1,2}
and S minus F is empty, yet the complement of F is the singleton {3}. -/
def cexBoardC1 : Board :=
  Board.mk 2
    [{0, 1}, {0}, {1}, {2},
     {0, 1, 2, 3}, {0, 1, 2, 3}, {0, 1, 2, 3}, {0, 1, 2, 3},
     {0, 1, 2, 3}, {0, 1, 2, 3}, {0, 1, 2, 3}, {0, 1, 2, 3},
     {0, 1, 2, 3}, {0, 1, 2, 3}, {0, 1, 2, 3}, {0, 1, 2, 3}] 4 0

/-- Concrete order-2 board on which the amended Rule 1 claim is
exercised: cell 0 holds {2,3}, its fixed peers carry {0} and {1}. -/
def wbBoardC1 : Board :=
  Board.mk 2
    [{2, 3}, {0}, {1}, {0, 1, 2, 3},
     {0, 1, 2, 3}, {0, 1, 2, 3}, {0, 1, 2, 3}, {0, 1, 2, 3},
     {0, 1, 2, 3}, {0, 1, 2, 3}, {0, 1, 2, 3}, {0, 1, 2, 3},
     {0, 1, 2, 3}, {0, 1, 2, 3}, {0, 1, 2, 3}, {0, 1, 2, 3}] 2 0

/-- C1 counterexample: on cexBoardC1 the set S minus F of the claim is
empty, so the claim demands that cell 0 become infeasible; but
Rule1_Elimination commits cell 0 to the value 3 (not a member of its
candidate set), reports a commit, and leaves the infeasible counter
untouched. -/
theorem rule1_claim_counterexample :
    cexBoardC1.getCell 0 ≠ ∅ ∧
    ¬ vsFixed (cexBoardC1.getCell 0) ∧
    cexBoardC1.getCell 0 \ peersFixedUnion cexBoardC1 0 = ∅ ∧
    (rule1 1 cexBoardC1 0).2 = true ∧
    (rule1 1 cexBoardC1 0).1.getCell 0 = {3} ∧
    (rule1 1 cexBoardC1 0).1.getCell 0 ≠ ∅ ∧
    (rule1 1 cexBoardC1 0).1.numInfeasible = cexBoardC1.numInfeasible := by
  decide

/-- C1 (amended): for a target cell that is neither empty nor fixed,
whose candidate set lies in the N-bit universe and contains every value
not fixed among its peers (true of every board reachable by propagation,
where a candidate is only removed when a peer fixes it), Rule 1 computes
S minus F for F the union of the fixed values of all peers (row, column,
box, excluding the cell; first conjunct characterizes F): if S minus F
is fixed it commits it via SetCellAndPropagate and reports a commit,
otherwise it stores S minus F and reports no commit; in particular when
S minus F is empty the cell is left empty (the infeasible counter is
then incremented by PropagateConstraints, not by Rule 1). -/
theorem rule1_elimination_amended (fuel : ℕ) (b : Board) (i : ℕ)
    (hlt : i < b.cellCount)
    (hne : b.getCell i ≠ ∅)
    (hnf : ¬ vsFixed (b.getCell i))
    (hsub : b.getCell i ⊆ vsUniv b.numUnits)
    (hclosed : ∀ v ∈ vsUniv b.numUnits, v ∉ b.getCell i → v ∈ peersFixedUnion b i) :
    (∀ x, x ∈ peersFixedUnion b i ↔
      ∃ j < b.numUnits, ∃ kk,
        (kk = rowCell b.numUnits (rowForCell b.numUnits i) j ∨
         kk = colCell b.numUnits (colForCell b.numUnits i) j ∨
         kk = boxCell b.order (boxForCell b.order i) j) ∧
        kk ≠ i ∧ vsFixed (b.getCell kk) ∧ x ∈ b.getCell kk) ∧
    (vsFixed (b.getCell i \ peersFixedUnion b i) →
      rule1 (fuel + 1) b i
        = (setCellAndPropagate fuel b i (b.getCell i \ peersFixedUnion b i), true)) ∧
    (¬ vsFixed (b.getCell i \ peersFixedUnion b i) →
      rule1 (fuel + 1) b i
        = (b.setCellDirect i (b.getCell i \ peersFixedUnion b i), false)) ∧
    (b.getCell i \ peersFixedUnion b i = ∅ →
      (rule1 (fuel + 1) b i).1.getCell i = ∅ ∧ (rule1 (fuel + 1) b i).2 = false) := by
  have hcompl : vsCompl b.numUnits (peersFixedUnion b i)
      = b.getCell i \ peersFixedUnion b i := by
    ext x
    unfold vsCompl
    simp only [Finset.mem_sdiff]
    constructor
    · rintro ⟨hxu, hxF⟩
      refine ⟨?_, hxF⟩
      by_contra hxc
      exact hxF (hclosed x hxu hxc)
    · rintro ⟨hxc, hxF⟩
      exact ⟨hsub hxc, hxF⟩
  have hguard : ¬ (b.getCell i = ∅ ∨ vsFixed (b.getCell i)) := by
    push_neg
    exact ⟨hne, hnf⟩
  have hrule : rule1 (fuel + 1) b i =
      (if vsFixed (b.getCell i \ peersFixedUnion b i) then
        (setCellAndPropagate fuel b i (b.getCell i \ peersFixedUnion b i), true)
      else
        (b.setCellDirect i (b.getCell i ∩ (b.getCell i \ peersFixedUnion b i)), false)) := by
    rw [rule1]
    rw [if_neg hguard]
    show (if vsFixed (vsCompl b.numUnits (peersFixedUnion b i)) then
        (setCellAndPropagate fuel b i (vsCompl b.numUnits (peersFixedUnion b i)), true)
      else
        (b.setCellDirect i (b.getCell i ∩ vsCompl b.numUnits (peersFixedUnion b i)),
         false)) = _
    rw [hcompl]
  have hinter : b.getCell i ∩ (b.getCell i \ peersFixedUnion b i)
      = b.getCell i \ peersFixedUnion b i :=
    Finset.inter_eq_right.mpr (Finset.sdiff_subset)
  refine ⟨mem_peersFixedUnion b i, ?_, ?_, ?_⟩
  · intro hfix
    rw [hrule, if_pos hfix]
  · intro hnfix
    rw [hrule, if_neg hnfix, hinter]
  · intro hempty
    have hnfix : ¬ vsFixed (b.getCell i \ peersFixedUnion b i) := by
      rw [hempty]
      simp [vsFixed]
    rw [hrule, if_neg hnfix, hinter]
    exact ⟨by rw [hempty]; exact getCell_setCellDirect_self b i ∅ hlt, rfl⟩

/-- C1 amended-claim witness: the amended theorem applied to wbBoardC1 at
cell 0, where S minus F = {2,3} is not fixed and Rule 1 stores it. -/
theorem rule1_elimination_amended_witness :
    (0 < wbBoardC1.cellCount ∧
     wbBoardC1.getCell 0 ≠ ∅ ∧
     ¬ vsFixed (wbBoardC1.getCell 0) ∧
     wbBoardC1.getCell 0 ⊆ vsUniv wbBoardC1.numUnits ∧
     (∀ v ∈ vsUniv wbBoardC1.numUnits,
        v ∉ wbBoardC1.getCell 0 → v ∈ peersFixedUnion wbBoardC1 0)) ∧
    rule1 1 wbBoardC1 0
      = (wbBoardC1.setCellDirect 0 (wbBoardC1.getCell 0 \ peersFixedUnion wbBoardC1 0),
         false) :=
  ⟨⟨by decide, by decide, by decide, by decide, by decide⟩,
   (rule1_elimination_amended 0 wbBoardC1 0 (by decide) (by decide) (by decide)
      (by decide) (by decide)).2.2.1 (by decide)⟩

/-- C10: calling SetCellAndPropagate on a cell that is already fixed is a
no-op: the board is returned unchanged, so every cell, the fixed-cell
counter and the infeasible counter are unchanged. -/
theorem setCellAndPropagate_fixed_noop (fuel : ℕ) (b : Board) (i : ℕ) (v : Finset ℕ)
    (h : vsFixed (b.getCell i)) :
    setCellAndPropagate fuel b i v = b ∧
    (∀ j, (setCellAndPropagate fuel b i v).getCell j = b.getCell j) ∧
    (setCellAndPropagate fuel b i v).numFixedCells = b.numFixedCells ∧
    (setCellAndPropagate fuel b i v).numInfeasible = b.numInfeasible := by
  have hb : setCellAndPropagate fuel b i v = b := by
    rw [setCellAndPropagate]
    rw [if_pos h]
  exact ⟨hb, fun j => by rw [hb], by rw [hb], by rw [hb]⟩

/-- C10 witness: SetCellAndPropagate on the fixed cell 0 of a concrete
board returns the board unchanged. -/
theorem setCellAndPropagate_fixed_noop_witness :
    vsFixed ((Board.mk 1 [{0}] 1 0).getCell 0) ∧
    setCellAndPropagate 3 (Board.mk 1 [{0}] 1 0) 0 {2} = Board.mk 1 [{0}] 1 0 :=
  ⟨by decide, (setCellAndPropagate_fixed_noop 3 (Board.mk 1 [{0}] 1 0) 0 {2}
      (by decide)).1⟩

/-!
Multi-colony DCM-ACO layer, from multicolonyantsystem.cpp. Machine floats
are embedded as real numbers; the per-entry loops over the pheromone
matrix become pointwise functional updates guarded by the loop bounds
(each loop iteration writes a distinct entry, so the order of writes is
irrelevant). Timing instrumentation is not modelled.
-/

/-- Colony, from multicolonyantsystem.h: pheromone matrix with its
dimensions, colony-best data, Max-Min parameters, and the type tag
(0 = ACS, 1 = MMAS). -/
structure Colony where
  pher : ℕ → ℕ → ℝ
  numCells : ℕ
  valuesPerCell : ℕ
  bestSol : Board
  bestPher : ℝ
  bestVal : ℕ
  tauMin : ℝ
  tauMax : ℝ
  tau0 : ℝ
  lastImproveIter : ℕ
  type : ℕ

/-- One entry of ClampPheromone: values below tauMin are raised to
tauMin, else values above tauMax are lowered to tauMax. -/
noncomputable def clampEntry (c : Colony) (p : ℝ) : ℝ :=
  if p < c.tauMin then c.tauMin else if p > c.tauMax then c.tauMax else p

/-- ClampPheromone: clamps every matrix entry, MMAS colonies only. -/
noncomputable def ClampPheromone (c : Colony) : Colony :=
  if c.type = 1 then
    { c with pher := fun i j =>
        if i < c.numCells ∧ j < c.valuesPerCell then clampEntry c (c.pher i j)
        else c.pher i j }
  else c

/-- UpdatePheromone (global update): for every cell fixed in bestSol,
the entry at (cell, chosen index) becomes old * (1 - rho) + rho *
bestPher; afterwards ClampPheromone runs. rho is the per-colony rho the
source reads through GetRho. -/
noncomputable def UpdatePheromone (rho : ℝ) (c : Colony) (bestSol : Board)
    (bestPher : ℝ) : Colony :=
  ClampPheromone
    { c with pher := fun i j =>
        if i < c.numCells ∧ vsFixed (bestSol.getCell i) ∧ j = vsIndex (bestSol.getCell i)
        then c.pher i j * (1 - rho) + rho * bestPher
        else c.pher i j }

/-- LocalPheromoneUpdate: ACS colonies only; the chosen entry becomes
0.9 * old + 0.1 * tau0. -/
noncomputable def LocalPheromoneUpdate (c : Colony) (iCell iChoice : ℕ) : Colony :=
  if c.type = 0 then
    { c with pher := fun i j =>
        if i = iCell ∧ j = iChoice then c.pher i j * (9 / 10) + c.tau0 * (1 / 10)
        else c.pher i j }
  else c

/-- ApplyPheromoneFusion restricted to one low-entropy ACS colony c,
with m the first MMAS colony, eMMAS and eACS the two solution entropies:
when eACS is below the threshold, every entry of the ACS matrix becomes
(1 - mix) * ACS + mix * MMAS with mix = eACS / (eACS + eMMAS) when the
total is positive, else 0; the loop bounds come from the MMAS colony. -/
noncomputable def ApplyPheromoneFusionOne (eThresh : ℝ) (m : Colony)
    (eMMAS eACS : ℝ) (c : Colony) : Colony :=
  if eACS < eThresh then
    let totalE := eACS + eMMAS
    let mix := if totalE > 0 then eACS / totalE else 0
    { c with pher := fun i j =>
        if i < m.numCells ∧ j < m.valuesPerCell then
          (1 - mix) * c.pher i j + mix * m.pher i j
        else c.pher i j }
  else c

/-- Consensus loop of ApplyPublicPathRecommendation for one cell: the
index every ACS best solution fixes the cell to, or -1 when some board
leaves it unfixed or two boards disagree (also -1 for the empty list,
matching the loop run on no boards, whose agreeIdx stays -1). -/
def publicIdxAt (boards : List Board) (cell : ℕ) : Int :=
  match boards with
  | [] => -1
  | b0 :: rest =>
    if vsFixedB (b0.getCell cell) then
      if rest.all (fun bb =>
          vsFixedB (bb.getCell cell) &&
          (vsIndex (bb.getCell cell) == vsIndex (b0.getCell cell)))
      then (vsIndex (b0.getCell cell) : Int)
      else -1
    else -1

/-- Reinforcement magnitude of the public-path recommendation as the
source computes it: exp(-iter) divided by nc, where nc is the cell
count numCells of the first ACS colony. -/
noncomputable def tauPubOf (iter nc : ℕ) : ℝ := Real.exp (-(iter : ℝ)) / (nc : ℝ)

/-- ApplyPublicPathRecommendation: for every cell on which all ACS best
solutions agree, the MMAS entry at (cell, agreed index) gains tauPub;
then ClampPheromone runs on the MMAS colony. The source also returns
early when its mmasIdx argument is empty; the driver always passes the
singleton of the MMAS colony index, embedded here as m itself. -/
noncomputable def ApplyPublicPathRecommendation (iter : ℕ) (acsBests : List Board)
    (nc : ℕ) (m : Colony) : Colony :=
  if acsBests = [] then m
  else
    ClampPheromone
      { m with pher := fun cell j =>
          if cell < nc ∧ 0 ≤ publicIdxAt acsBests cell ∧
              (j : Int) = publicIdxAt acsBests cell
          then m.pher cell j + tauPubOf iter nc
          else m.pher cell j }

/-- Convergence rate con_t = lastImproveIter / iter, taken as 1.0 when
iter is 0. -/
noncomputable def convergenceRate (lastImproveIter iter : ℕ) : ℝ :=
  if 0 < iter then (lastImproveIter : ℝ) / (iter : ℝ) else 1

/-- The MMAS arm of the cooperation phase of MultiColonyAntSystem::Solve:
when the convergence rate is below the threshold, Public-Path
Recommendation runs provided ACS colonies exist (otherwise nothing
happens); else the MMAS colony receives the global update with its own
bestSol and bestPher. rhoM is the rho of the MMAS colony. -/
noncomputable def mmasCooperationStep (iter : ℕ) (convThreshold : ℝ)
    (acsBests : List Board) (nc : ℕ) (rhoM : ℝ) (m : Colony) : Colony :=
  if convergenceRate m.lastImproveIter iter < convThreshold then
    (if acsBests ≠ [] then ApplyPublicPathRecommendation iter acsBests nc m else m)
  else UpdatePheromone rhoM m m.bestSol m.bestPher

/-- Divisor of PherAdd: numCells - cellsFilled, as machine-int
subtraction. -/
def pherAddDivisor (numCells cellsFilled : ℕ) : ℤ :=
  (numCells : ℤ) - (cellsFilled : ℤ)

/-- PherAdd(numCells, cellsFilled) = numCells / (numCells - cellsFilled),
with no guard on the divisor. When the divisor is zero the C++ float
division yields infinity; the real-valued embedding is only meaningful
for a nonzero divisor, and pherAddDivisor exposes the divisor itself. -/
noncomputable def PherAdd (numCells cellsFilled : ℕ) : ℝ :=
  (numCells : ℝ) / ((pherAddDivisor numCells cellsFilled : ℤ) : ℝ)

/-- Best fill count of a colony in the best-extraction step of Solve:
bestVal starts at 0 and each ant with a strictly larger NumCellsFilled
replaces it. -/
def bestValOfFills (fills : List ℕ) : ℕ :=
  fills.foldl (fun acc f => if f > acc then f else acc) 0

/-- Per-colony input of ACSCooperativeGameAllocate: the cell count of
the colony, its bestVal, and its solution entropy as ComputeEntropy
returns it. -/
structure AllocIn where
  numCells : ℕ
  bestVal : ℕ
  entropy : ℝ

/-- Pheromone revenue add_k = PherAdd(numCells, bestVal) of one colony. -/
noncomputable def allocAdd (x : AllocIn) : ℝ := PherAdd x.numCells x.bestVal

/-- Solution length len_k = numCells - bestVal (machine-int subtraction). -/
def allocLen (x : AllocIn) : ℤ := (x.numCells : ℤ) - (x.bestVal : ℤ)

/-- minLen: minimum length over the colonies, accumulated from INT_MAX. -/
def allocMinLen (xs : List AllocIn) : ℤ :=
  (xs.map allocLen).foldl min 2147483647

/-- emax: maximum entropy over the colonies, accumulated from 0. -/
noncomputable def allocEmax (xs : List AllocIn) : ℝ :=
  (xs.map AllocIn.entropy).foldl max 0

/-- Contribution contr_k = (minLen/len_k when len_k > 0 else 1) *
(H_k/Hmax when Hmax > 0 else 0). -/
noncomputable def allocContr (xs : List AllocIn) (x : AllocIn) : ℝ :=
  (if allocLen x > 0 then ((allocMinLen xs : ℤ) : ℝ) / ((allocLen x : ℤ) : ℝ) else 1) *
  (if allocEmax xs > 0 then x.entropy / allocEmax xs else 0)

/-- Sum of the contributions. -/
noncomputable def allocSumContr (xs : List AllocIn) : ℝ :=
  (xs.map (allocContr xs)).sum

/-- ACSCooperativeGameAllocate: every colony receives
(contr_k / sum when the sum is positive, else the uniform share
1/length) times the total payoff b = sum of the adds. -/
noncomputable def ACSCooperativeGameAllocate (xs : List AllocIn) : List ℝ :=
  (xs.map (allocContr xs)).map (fun ck =>
    (if allocSumContr xs > 0 then ck / allocSumContr xs else 1 / (xs.length : ℝ)) *
    (xs.map allocAdd).sum)

/-- BoardsEqual: two boards are equal when they have the same cell count
and every cell agrees on the fixed flag and, when fixed, on the index. -/
def boardsEqual (a b : Board) : Bool :=
  a.cellCount == b.cellCount &&
  (List.range a.cellCount).all (fun i =>
    (vsFixedB (a.getCell i) == vsFixedB (b.getCell i)) &&
    (!(vsFixedB (a.getCell i)) || (vsIndex (a.getCell i) == vsIndex (b.getCell i))))

/-- One step of the solution-grouping loop of ComputeEntropy: the board
joins the first distinct solution equal to it, else opens a new group at
the end. -/
def addToGroups : List (Board × ℕ) → Board → List (Board × ℕ)
  | [], bb => [(bb, 1)]
  | (rep, cnt) :: rest, bb =>
    if boardsEqual bb rep then (rep, cnt + 1) :: rest
    else (rep, cnt) :: addToGroups rest bb

/-- Grouping of the ant solutions into distinct solutions with counts. -/
def groupSolutions (boards : List Board) : List (Board × ℕ) :=
  boards.foldl addToGroups []

/-- ComputeEntropy: Shannon entropy (base 2) of the distribution of the
ant solutions over distinct boards; 0 for an empty ant list. -/
noncomputable def ComputeEntropy (boards : List Board) : ℝ :=
  if boards.isEmpty then 0
  else
    -(((groupSolutions boards).map (fun g =>
        let p : ℝ := (g.2 : ℝ) / (boards.length : ℝ)
        if p > 0 then p * Real.logb 2 p else 0)).sum)

/-!
Solver facade, from solver_api.cpp. The solve call is abstracted by its
outcome: either an exception with its message, or a normal return with
the Solve flag, the CheckSolution verdict and the rendered solution
string. SolverResult fields default to success=false and empty strings,
exactly as the C++ struct initializes them.
-/

/-- Outcome of the inner solver run inside SolveSudoku. -/
inductive SolveOutcome where
  | thrown (msg : String)
  | ran (ok : Bool) (checkPasses : Bool) (pretty : String)
deriving DecidableEq

/-- Result record of the facade. -/
structure SolverResult where
  success : Bool
  solvedPretty : String
  error : String
deriving DecidableEq

/-- SolveSudoku facade logic: on exception the message is stored; on a
normal return, success follows ok, a failed CheckSolution downgrades
success with the message "Solution not valid.", and when ok is false the
default record fields (empty strings) are returned with success=false. -/
def SolveSudoku (o : SolveOutcome) : SolverResult :=
  match o with
  | SolveOutcome.thrown msg => { success := false, solvedPretty := "", error := msg }
  | SolveOutcome.ran ok checkPasses pretty =>
    if ok then
      if checkPasses then { success := true, solvedPretty := pretty, error := "" }
      else { success := false, solvedPretty := "", error := "Solution not valid." }
    else { success := false, solvedPretty := "", error := "" }

/-!
Shared list arithmetic helpers.
-/

/-- Factoring a common right factor out of a mapped sum. -/
lemma listSumMapMulRight {α : Type} (l : List α) (f : α → ℝ) (r : ℝ) :
    (l.map (fun x => f x * r)).sum = (l.map f).sum * r := by
  induction l with
  | nil => simp
  | cons hd t ih => simp [ih, add_mul]

/-- Sum of a constantly mapped list. -/
lemma listSumMapConst {α : Type} (l : List α) (r : ℝ) :
    (l.map (fun _ => r)).sum = (l.length : ℝ) * r := by
  induction l with
  | nil => simp
  | cons hd t ih =>
    simp [ih]
    ring

/-- Negation distributes over a mapped sum. -/
lemma listSumMapNeg {α : Type} (l : List α) (f : α → ℝ) :
    (l.map (fun x => -(f x))).sum = -((l.map f).sum) := by
  induction l with
  | nil => simp
  | cons hd t ih => simp [ih]; ring

/-!
Claim C8: the solver facade on failure.
-/

/-- C8 counterexample: when the inner solver reports failure (the timeout
path) and no exception is thrown, the facade returns success=false with
an empty pretty string and an EMPTY error message, contradicting the
claim that the error field carries a non-empty message on every
failure. -/
theorem solveSudoku_claim_counterexample :
    (SolveSudoku (SolveOutcome.ran false true ("best-effort"))).success = false ∧
    (SolveSudoku (SolveOutcome.ran false true ("best-effort"))).solvedPretty = "" ∧
    (SolveSudoku (SolveOutcome.ran false true ("best-effort"))).error = "" :=
  ⟨rfl, rfl, rfl⟩

/-- C8 (amended): whenever the facade reports success=false the pretty
string is empty; the error message is the exception text on the thrown
path and "Solution not valid." on the invalid-solution path, but it is
left empty when the inner solver itself reports failure (the timeout
path). -/
theorem solveSudoku_failure_amended :
    (∀ o : SolveOutcome,
      (SolveSudoku o).success = false → (SolveSudoku o).solvedPretty = "") ∧
    (∀ msg, (SolveSudoku (SolveOutcome.thrown msg)).error = msg) ∧
    (∀ p, (SolveSudoku (SolveOutcome.ran true false p)).error = "Solution not valid.") ∧
    (∀ cp p, (SolveSudoku (SolveOutcome.ran false cp p)).success = false ∧
      (SolveSudoku (SolveOutcome.ran false cp p)).error = "") := by
  refine ⟨?_, fun msg => rfl, fun p => rfl, fun cp p => ⟨rfl, rfl⟩⟩
  intro o h
  cases o with
  | thrown msg => rfl
  | ran ok cp p =>
    cases ok with
    | false => rfl
    | true =>
      cases cp with
      | false => rfl
      | true => simp [SolveSudoku] at h

/-- C8 amended-claim witness: the facade result on a thrown outcome has
success=false, and the amended theorem yields the empty pretty string
there. -/
theorem solveSudoku_failure_amended_witness :
    (SolveSudoku (SolveOutcome.thrown ("Empty puzzle string."))).success = false ∧
    (SolveSudoku (SolveOutcome.thrown ("Empty puzzle string."))).solvedPretty = "" :=
  ⟨rfl, solveSudoku_failure_amended.1 (SolveOutcome.thrown ("Empty puzzle string.")) rfl⟩

/-!
Claim C4: MMAS gating by convergence.
-/

/-- Board used by the concrete colonies of the update-layer witnesses. -/
def boardW : Board := Board.mk 1 [{0}] 1 0

/-- Concrete MMAS colony whose best solution fixes its single cell. -/
def mmasColonyW : Colony :=
  { pher := fun _ _ => 1, numCells := 1, valuesPerCell := 1, bestSol := boardW,
    bestPher := 3, bestVal := 1, tauMin := 0, tauMax := 10, tau0 := 1,
    lastImproveIter := 0, type := 1 }

/-- C4 counterexample: at iter=1 with lastImproveIter=0 the convergence
rate 0 is below the threshold 1/2, but with no ACS colonies the driver
takes NEITHER action: the colony is returned unchanged, while the global
update the claim mandates would have changed the pheromone entry (0,0)
from 1 to 1.2. -/
theorem mmasGating_claim_counterexample :
    convergenceRate 0 1 < (1 / 2 : ℝ) ∧
    mmasCooperationStep 1 (1 / 2) [] 1 (1 / 10) mmasColonyW = mmasColonyW ∧
    (UpdatePheromone (1 / 10) mmasColonyW mmasColonyW.bestSol
        mmasColonyW.bestPher).pher 0 0 ≠ mmasColonyW.pher 0 0 := by
  have hcon : convergenceRate 0 1 < (1 / 2 : ℝ) := by
    norm_num [convergenceRate]
  refine ⟨hcon, ?_, ?_⟩
  · have hc2 : convergenceRate mmasColonyW.lastImproveIter 1 < (1 / 2 : ℝ) := by
      norm_num [convergenceRate, mmasColonyW]
    simp only [mmasCooperationStep]
    have hnn : ¬(([] : List Board) ≠ []) := by simp
    rw [if_pos hc2, if_neg hnn]
  · have hfix : vsFixed (boardW.getCell 0) := by decide
    have hidx : vsIndex (boardW.getCell 0) = 0 := by decide
    simp only [UpdatePheromone, ClampPheromone, mmasColonyW, boardW]
    norm_num [clampEntry, vsFixed, vsIndex, Board.getCell]

/-- C4 (amended): with at least one MMAS colony, the cooperation phase
takes exactly one branch: Public-Path Recommendation when the
convergence rate is below the threshold and ACS colonies exist, the MMAS
global update with the own bestSol and bestPher of the colony when the rate
is not below the threshold, and NO action at all when the rate is below
the threshold but no ACS colony exists. -/
theorem mmasGating_amended (iter : ℕ) (convThreshold : ℝ) (acsBests : List Board)
    (nc : ℕ) (rhoM : ℝ) (m : Colony) :
    (convergenceRate m.lastImproveIter iter < convThreshold → acsBests ≠ [] →
      mmasCooperationStep iter convThreshold acsBests nc rhoM m
        = ApplyPublicPathRecommendation iter acsBests nc m) ∧
    (¬ convergenceRate m.lastImproveIter iter < convThreshold →
      mmasCooperationStep iter convThreshold acsBests nc rhoM m
        = UpdatePheromone rhoM m m.bestSol m.bestPher) ∧
    (convergenceRate m.lastImproveIter iter < convThreshold → acsBests = [] →
      mmasCooperationStep iter convThreshold acsBests nc rhoM m = m) := by
  refine ⟨?_, ?_, ?_⟩
  · intro hcon hne
    simp [mmasCooperationStep, hcon, hne]
  · intro hcon
    simp [mmasCooperationStep, hcon]
  · intro hcon hemp
    simp [mmasCooperationStep, hcon, hemp]

/-- C4 amended-claim witness: at iter=0 the convergence rate is taken as
1, which is not below the threshold 1/2, so the amended theorem yields
the MMAS global update branch. -/
theorem mmasGating_amended_witness :
    ¬ convergenceRate mmasColonyW.lastImproveIter 0 < (1 / 2 : ℝ) ∧
    mmasCooperationStep 0 (1 / 2) [] 1 (1 / 10) mmasColonyW
      = UpdatePheromone (1 / 10) mmasColonyW mmasColonyW.bestSol mmasColonyW.bestPher :=
  ⟨by norm_num [convergenceRate],
   (mmasGating_amended 0 (1 / 2) [] 1 (1 / 10) mmasColonyW).2.1
     (by norm_num [convergenceRate])⟩

/-!
Claim C9: PherAdd and the unguarded divisor in the best-extraction step.
-/

/-- The accumulated best fill count never exceeds a bound respected by
the start value and every list member. -/
lemma bestValFoldl_le (n : ℕ) :
    ∀ (l : List ℕ) (a : ℕ), a ≤ n → (∀ f ∈ l, f ≤ n) →
      l.foldl (fun acc f => if f > acc then f else acc) a ≤ n := by
  intro l
  induction l with
  | nil => intro a ha _; simpa using ha
  | cons hd t ih =>
    intro a ha hall
    simp only [List.foldl_cons]
    apply ih
    · by_cases h : hd > a
      · simpa [h] using hall hd (List.mem_cons_self hd t)
      · simpa [h] using ha
    · intro f hf; exact hall f (List.mem_cons_of_mem hd hf)

/-- Every list member bounds the accumulated best fill count from below. -/
lemma le_bestValFoldl (x : ℕ) :
    ∀ (l : List ℕ) (a : ℕ), (x ∈ l ∨ x ≤ a) →
      x ≤ l.foldl (fun acc f => if f > acc then f else acc) a := by
  intro l
  induction l with
  | nil =>
    intro a h
    rcases h with h | h
    · cases h
    · simpa using h
  | cons hd t ih =>
    intro a h
    simp only [List.foldl_cons]
    apply ih
    rcases h with h | h
    · rcases List.mem_cons.mp h with rfl | hmem
      · right
        by_cases hgt : x > a
        · simp [hgt]
        · simp only [if_neg hgt]
          omega
      · left; exact hmem
    · right
      by_cases hgt : hd > a
      · simp only [if_pos hgt]; omega
      · simpa [hgt] using h

/-- C9: PherAdd divides numCells by numCells - cellsFilled with no guard
on the divisor, and the best-extraction step of Solve evaluates it
before the solved check: whenever some ant fills every cell, the bestVal
it computes equals numCells and the divisor of the division it performs
is zero. -/
theorem pherAdd_zero_divisor (numCells : ℕ) (fills : List ℕ)
    (hmem : numCells ∈ fills) (hle : ∀ f ∈ fills, f ≤ numCells) :
    bestValOfFills fills = numCells ∧
    pherAddDivisor numCells (bestValOfFills fills) = 0 := by
  have hbest : bestValOfFills fills = numCells := by
    apply le_antisymm
    · exact bestValFoldl_le numCells fills 0 (Nat.zero_le _) hle
    · exact le_bestValFoldl numCells fills 0 (Or.inl hmem)
  refine ⟨hbest, ?_⟩
  rw [hbest]
  simp [pherAddDivisor]

/-- C9 witness: with fills [2,4,3] on a 4-cell board, the best fill count
is 4 and the PherAdd divisor is zero. -/
theorem pherAdd_zero_divisor_witness :
    (4 ∈ [2, 4, 3] ∧ ∀ f ∈ [2, 4, 3], f ≤ 4) ∧
    pherAddDivisor 4 (bestValOfFills [2, 4, 3]) = 0 :=
  ⟨⟨by decide, by decide⟩,
   (pherAdd_zero_divisor 4 [2, 4, 3] (by decide) (by decide)).2⟩

/-!
Claim C6: cooperative-game conservation.
-/

/-- C6: the cooperative-game allocation conserves the total payoff: the
allocations of the high-entropy ACS colonies sum to b, the sum of the
per-colony adds PherAdd(C, bestVal); in the degenerate case where the
contribution sum is not positive, every colony receives the uniform
share b / (number of colonies). -/
theorem cooperativeGame_conservation (xs : List AllocIn) (hne : xs ≠ []) :
    (ACSCooperativeGameAllocate xs).sum = (xs.map allocAdd).sum ∧
    (¬ allocSumContr xs > 0 →
      ∀ a ∈ ACSCooperativeGameAllocate xs,
        a = (xs.map allocAdd).sum / (xs.length : ℝ)) := by
  have hlen : (0 : ℝ) < (xs.length : ℝ) := by
    have : 0 < xs.length := List.length_pos.mpr hne
    exact_mod_cast this
  by_cases hpos : allocSumContr xs > 0
  · constructor
    · have hs : allocSumContr xs ≠ 0 := ne_of_gt hpos
      simp only [ACSCooperativeGameAllocate, if_pos hpos]
      have hfun : ∀ ck : ℝ, ck / allocSumContr xs * (xs.map allocAdd).sum
          = ck * ((xs.map allocAdd).sum / allocSumContr xs) := by
        intro ck; ring
      calc ((xs.map (allocContr xs)).map (fun ck =>
              ck / allocSumContr xs * (xs.map allocAdd).sum)).sum
          = ((xs.map (allocContr xs)).map (fun ck =>
              ck * ((xs.map allocAdd).sum / allocSumContr xs))).sum := by
            congr 1
            exact List.map_congr_left (fun ck _ => hfun ck)
        _ = (xs.map (allocContr xs)).sum * ((xs.map allocAdd).sum / allocSumContr xs) := by
            simpa using listSumMapMulRight (xs.map (allocContr xs)) (fun x => x)
              ((xs.map allocAdd).sum / allocSumContr xs)
        _ = allocSumContr xs * ((xs.map allocAdd).sum / allocSumContr xs) := by
            rw [allocSumContr]
        _ = (xs.map allocAdd).sum := by
            field_simp
    · intro hneg; exact absurd hpos hneg
  · constructor
    · simp only [ACSCooperativeGameAllocate, if_neg hpos]
      rw [listSumMapConst]
      rw [List.length_map]
      field_simp
    · intro _ a ha
      simp only [ACSCooperativeGameAllocate, if_neg hpos] at ha
      rcases List.mem_map.mp ha with ⟨ck, _, hck⟩
      rw [← hck]
      field_simp

/-- C6 witness: two colonies with zero entropy (contribution sum 0) each
receive the uniform share, and the allocation sums to the total payoff. -/
theorem cooperativeGame_conservation_witness :
    (([⟨16, 12, 0⟩, ⟨16, 8, 0⟩] : List AllocIn) ≠ []) ∧
    (ACSCooperativeGameAllocate [⟨16, 12, 0⟩, ⟨16, 8, 0⟩]).sum
      = (([⟨16, 12, 0⟩, ⟨16, 8, 0⟩] : List AllocIn).map allocAdd).sum :=
  ⟨by simp,
   (cooperativeGame_conservation [⟨16, 12, 0⟩, ⟨16, 8, 0⟩] (by simp)).1⟩

/-!
Claim C2: pheromone bounds and nonnegativity.
-/

/-- Every pheromone entry of the colony is non-negative. -/
def PherNonneg (c : Colony) : Prop := ∀ i j, 0 ≤ c.pher i j

/-- Every in-range pheromone entry lies within the colony bounds. -/
def PherInBounds (c : Colony) : Prop :=
  ∀ i < c.numCells, ∀ j < c.valuesPerCell,
    c.tauMin ≤ c.pher i j ∧ c.pher i j ≤ c.tauMax

/-- A clamped entry lies within the bounds when they are ordered. -/
lemma clampEntry_bounds (c : Colony) (h : c.tauMin ≤ c.tauMax) (p : ℝ) :
    c.tauMin ≤ clampEntry c p ∧ clampEntry c p ≤ c.tauMax := by
  unfold clampEntry
  split_ifs with h1 h2
  · exact ⟨le_refl _, h⟩
  · exact ⟨h, le_refl _⟩
  · constructor <;> linarith

/-- A clamped entry is non-negative when the entry and both bounds are. -/
lemma clampEntry_nonneg (c : Colony) (h0 : 0 ≤ c.tauMin) (h1 : 0 ≤ c.tauMax)
    (p : ℝ) (hp : 0 ≤ p) : 0 ≤ clampEntry c p := by
  unfold clampEntry
  split_ifs <;> assumption

/-- ClampPheromone yields in-bounds entries on an MMAS colony. -/
lemma pherInBounds_clamp (c : Colony) (ht : c.type = 1) (h : c.tauMin ≤ c.tauMax) :
    PherInBounds (ClampPheromone c) := by
  unfold PherInBounds ClampPheromone
  rw [if_pos ht]
  intro i hi j hj
  simp only at hi hj ⊢
  rw [if_pos ⟨hi, hj⟩]
  exact clampEntry_bounds c h _

/-- ClampPheromone preserves nonnegativity when both bounds are
non-negative (either colony type). -/
lemma pherNonneg_clamp (c : Colony) (h0 : 0 ≤ c.tauMin) (h1 : 0 ≤ c.tauMax)
    (hm : PherNonneg c) : PherNonneg (ClampPheromone c) := by
  unfold PherNonneg ClampPheromone
  split_ifs with ht
  · intro i j
    simp only
    split_ifs with hrange
    · exact clampEntry_nonneg c h0 h1 _ (hm i j)
    · exact hm i j
  · exact hm

/-- C2: immediately after any update that writes an MMAS colony matrix
(the global update UpdatePheromone, or Public-Path reinforcement), every
in-range entry lies within the current [tauMin, tauMax] (which requires
the bounds to be ordered, as the driver maintains them); and every
update family (ACS local update, global update, pheromone fusion,
public-path reinforcement, clamping) preserves nonnegativity of all
entries under nonnegativity of its inputs. -/
theorem pheromone_invariant (m mm : Colony) (rho bestPher : ℝ) (bs : Board)
    (iter : ℕ) (acsBests : List Board) (nc : ℕ)
    (eThresh eMMAS eACS : ℝ) (iCell iChoice : ℕ) :
    (m.type = 1 → m.tauMin ≤ m.tauMax →
      PherInBounds (UpdatePheromone rho m bs bestPher)) ∧
    (m.type = 1 → m.tauMin ≤ m.tauMax → acsBests ≠ [] →
      PherInBounds (ApplyPublicPathRecommendation iter acsBests nc m)) ∧
    (PherNonneg m → 0 ≤ m.tau0 →
      PherNonneg (LocalPheromoneUpdate m iCell iChoice)) ∧
    (PherNonneg m → 0 ≤ rho → rho ≤ 1 → 0 ≤ bestPher →
      0 ≤ m.tauMin → 0 ≤ m.tauMax →
      PherNonneg (UpdatePheromone rho m bs bestPher)) ∧
    (PherNonneg m → PherNonneg mm → 0 ≤ eACS → 0 ≤ eMMAS →
      PherNonneg (ApplyPheromoneFusionOne eThresh mm eMMAS eACS m)) ∧
    (PherNonneg m → 0 ≤ m.tauMin → 0 ≤ m.tauMax →
      PherNonneg (ApplyPublicPathRecommendation iter acsBests nc m)) ∧
    (PherNonneg m → 0 ≤ m.tauMin → 0 ≤ m.tauMax →
      PherNonneg (ClampPheromone m)) := by
  refine ⟨?_, ?_, ?_, ?_, ?_, ?_, ?_⟩
  · intro ht hb
    unfold UpdatePheromone
    exact pherInBounds_clamp _ ht hb
  · intro ht hb hne
    unfold ApplyPublicPathRecommendation
    rw [if_neg hne]
    exact pherInBounds_clamp _ ht hb
  · intro hm ht0
    unfold LocalPheromoneUpdate PherNonneg
    split_ifs with ht
    · intro i j
      simp only
      split_ifs with hij
      · have h1 : 0 ≤ m.pher i j * (9 / 10) :=
          mul_nonneg (hm i j) (by norm_num)
        have h2 : 0 ≤ m.tau0 * (1 / 10) := mul_nonneg ht0 (by norm_num)
        linarith
      · exact hm i j
    · exact hm
  · intro hm hr0 hr1 hbp h0 h1
    unfold UpdatePheromone
    refine pherNonneg_clamp _ ?_ ?_ ?_
    · exact h0
    · exact h1
    · intro i j
      simp only
      split_ifs with hij
      · have ha : 0 ≤ m.pher i j * (1 - rho) := mul_nonneg (hm i j) (by linarith)
        have hb2 : 0 ≤ rho * bestPher := mul_nonneg hr0 hbp
        linarith
      · exact hm i j
  · intro hm hmm he1 he2
    unfold ApplyPheromoneFusionOne
    split_ifs with hlow
    · intro i j
      simp only
      set w : ℝ := if eACS + eMMAS > 0 then eACS / (eACS + eMMAS) else 0 with hw
      have hmix0 : 0 ≤ w := by
        rw [hw]
        split_ifs with hpos
        · exact div_nonneg he1 (le_of_lt hpos)
        · exact le_refl 0
      have hmix1 : w ≤ 1 := by
        rw [hw]
        split_ifs with hpos
        · rw [div_le_one hpos]; linarith
        · norm_num
      split_ifs with hij
      · have ha : 0 ≤ (1 - w) * m.pher i j := mul_nonneg (by linarith) (hm i j)
        have hb2 : 0 ≤ w * mm.pher i j := mul_nonneg hmix0 (hmm i j)
        linarith
      · exact hm i j
    · exact hm
  · intro hm h0 h1
    unfold ApplyPublicPathRecommendation
    split_ifs with hne
    · exact hm
    · refine pherNonneg_clamp _ ?_ ?_ ?_
      · exact h0
      · exact h1
      · intro i j
        simp only
        split_ifs with hij
        · have htp : 0 ≤ tauPubOf iter nc := by
            unfold tauPubOf
            exact div_nonneg (le_of_lt (Real.exp_pos _)) (Nat.cast_nonneg nc)
          have := hm i j
          linarith
        · exact hm i j
  · intro hm h0 h1
    exact pherNonneg_clamp m h0 h1 hm

/-- C2 witness: the invariant theorem instantiated on a concrete MMAS
colony with ordered non-negative bounds and all-ones pheromone. -/
theorem pheromone_invariant_witness :
    (mmasColonyW.type = 1 ∧ mmasColonyW.tauMin ≤ mmasColonyW.tauMax ∧
     PherNonneg mmasColonyW ∧ 0 ≤ mmasColonyW.tau0 ∧
     0 ≤ mmasColonyW.tauMin ∧ 0 ≤ mmasColonyW.tauMax) ∧
    PherInBounds (UpdatePheromone (1 / 10) mmasColonyW boardW 1) ∧
    PherInBounds (ApplyPublicPathRecommendation 0 [boardW] 1 mmasColonyW) ∧
    PherNonneg (LocalPheromoneUpdate mmasColonyW 0 0) ∧
    PherNonneg (UpdatePheromone (1 / 10) mmasColonyW boardW 1) ∧
    PherNonneg (ApplyPheromoneFusionOne 1 mmasColonyW 0 0 mmasColonyW) ∧
    PherNonneg (ApplyPublicPathRecommendation 0 [boardW] 1 mmasColonyW) ∧
    PherNonneg (ClampPheromone mmasColonyW) := by
  have ht : mmasColonyW.type = 1 := rfl
  have hb : mmasColonyW.tauMin ≤ mmasColonyW.tauMax := by
    norm_num [mmasColonyW]
  have hm : PherNonneg mmasColonyW := by
    intro i j
    norm_num [mmasColonyW]
  have ht0 : (0 : ℝ) ≤ mmasColonyW.tau0 := by norm_num [mmasColonyW]
  have h0 : (0 : ℝ) ≤ mmasColonyW.tauMin := by norm_num [mmasColonyW]
  have h1 : (0 : ℝ) ≤ mmasColonyW.tauMax := by norm_num [mmasColonyW]
  have H := pheromone_invariant mmasColonyW mmasColonyW (1 / 10) 1 boardW
    0 [boardW] 1 1 0 0 0 0
  exact ⟨⟨ht, hb, hm, ht0, h0, h1⟩,
    H.1 ht hb,
    H.2.1 ht hb (by simp),
    H.2.2.1 hm ht0,
    H.2.2.2.1 hm (by norm_num) (by norm_num) (by norm_num) h0 h1,
    H.2.2.2.2.1 hm hm (le_refl 0) (le_refl 0),
    H.2.2.2.2.2.1 hm h0 h1,
    H.2.2.2.2.2.2 hm h0 h1⟩

/-!
Claim C5: pheromone fusion mixing.
-/

/-- Mixing weight of the fusion claim: w = eACS / (eACS + eMMAS), taken
as 0 when the total is zero. -/
noncomputable def fusionWeight (eACS eMMAS : ℝ) : ℝ :=
  if eACS + eMMAS = 0 then 0 else eACS / (eACS + eMMAS)

/-- C5: for a low-entropy ACS colony selected for fusion (its entropy is
below the threshold, which the function re-checks), every in-range entry
becomes the convex mix (1 - w) * ACS + w * MMAS with
w = eACS / (eACS + eMMAS) (0 when both entropies are zero), and no clamp
is applied: the entry equals the mix itself and the ACS colony bounds
and type are untouched. -/
theorem pheromoneFusion_mix (eThresh : ℝ) (m : Colony) (eMMAS eACS : ℝ) (c : Colony)
    (hACS : 0 ≤ eACS) (hMMAS : 0 ≤ eMMAS) (hlow : eACS < eThresh)
    (i j : ℕ) (hi : i < m.numCells) (hj : j < m.valuesPerCell) :
    (ApplyPheromoneFusionOne eThresh m eMMAS eACS c).pher i j
      = (1 - fusionWeight eACS eMMAS) * c.pher i j
        + fusionWeight eACS eMMAS * m.pher i j ∧
    (ApplyPheromoneFusionOne eThresh m eMMAS eACS c).tauMin = c.tauMin ∧
    (ApplyPheromoneFusionOne eThresh m eMMAS eACS c).tauMax = c.tauMax ∧
    (ApplyPheromoneFusionOne eThresh m eMMAS eACS c).type = c.type := by
  have hmixeq : (if eACS + eMMAS > 0 then eACS / (eACS + eMMAS) else 0)
      = fusionWeight eACS eMMAS := by
    unfold fusionWeight
    split_ifs with h1 h2 h3
    · linarith
    · rfl
    · rfl
    · linarith [lt_of_le_of_ne (by linarith : (0 : ℝ) ≤ eACS + eMMAS) (Ne.symm h3)]
  refine ⟨?_, ?_, ?_, ?_⟩
  · unfold ApplyPheromoneFusionOne
    rw [if_pos hlow]
    show (if i < m.numCells ∧ j < m.valuesPerCell then
        (1 - (if eACS + eMMAS > 0 then eACS / (eACS + eMMAS) else 0)) * c.pher i j
          + (if eACS + eMMAS > 0 then eACS / (eACS + eMMAS) else 0) * m.pher i j
      else c.pher i j) = _
    rw [if_pos ⟨hi, hj⟩, hmixeq]
  · unfold ApplyPheromoneFusionOne
    rw [if_pos hlow]
  · unfold ApplyPheromoneFusionOne
    rw [if_pos hlow]
  · unfold ApplyPheromoneFusionOne
    rw [if_pos hlow]

/-- C5 witness: fusing the concrete colony with itself at entropies
eACS = eMMAS = 1/2 below the threshold 1 yields the mixed entry. -/
theorem pheromoneFusion_mix_witness :
    ((0 : ℝ) ≤ 1 / 2 ∧ (1 / 2 : ℝ) < 1 ∧ 0 < mmasColonyW.numCells ∧
      0 < mmasColonyW.valuesPerCell) ∧
    (ApplyPheromoneFusionOne 1 mmasColonyW (1 / 2) (1 / 2) mmasColonyW).pher 0 0
      = (1 - fusionWeight (1 / 2) (1 / 2)) * mmasColonyW.pher 0 0
        + fusionWeight (1 / 2) (1 / 2) * mmasColonyW.pher 0 0 :=
  ⟨⟨by norm_num, by norm_num, by norm_num [mmasColonyW], by norm_num [mmasColonyW]⟩,
   (pheromoneFusion_mix 1 mmasColonyW (1 / 2) (1 / 2) mmasColonyW
      (by norm_num) (by norm_num) (by norm_num) 0 0
      (by norm_num [mmasColonyW]) (by norm_num [mmasColonyW])).1⟩

/-!
Claim C3: public-path recommendation.
-/

/-- Boolean and propositional fixedness agree. -/
lemma vsFixedB_iff (s : Finset ℕ) : vsFixedB s = true ↔ vsFixed s := by
  simp [vsFixedB, vsFixed]

/-- The consensus index computed by the loop equals v exactly when every
ACS best solution fixes the cell to v. -/
lemma publicIdxAt_spec (boards : List Board) (hne : boards ≠ []) (cell v : ℕ) :
    (0 ≤ publicIdxAt boards cell ∧ publicIdxAt boards cell = (v : Int)) ↔
      ∀ bb ∈ boards, vsFixed (bb.getCell cell) ∧ vsIndex (bb.getCell cell) = v := by
  cases boards with
  | nil => exact absurd rfl hne
  | cons b0 rest =>
    rw [show publicIdxAt (b0 :: rest) cell =
        (if vsFixedB (b0.getCell cell) = true then
          if (rest.all fun bb =>
              vsFixedB (bb.getCell cell) &&
                vsIndex (bb.getCell cell) == vsIndex (b0.getCell cell)) = true
          then (vsIndex (b0.getCell cell) : Int) else -1
        else -1) from rfl]
    by_cases hfix : vsFixedB (b0.getCell cell) = true
    · rw [if_pos hfix]
      by_cases hall : rest.all (fun bb =>
          vsFixedB (bb.getCell cell) &&
          (vsIndex (bb.getCell cell) == vsIndex (b0.getCell cell))) = true
      · rw [if_pos hall]
        constructor
        · rintro ⟨h0le, heq⟩
          have hv : vsIndex (b0.getCell cell) = v := by exact_mod_cast heq
          intro bb hbb
          rcases List.mem_cons.mp hbb with rfl | hmem
          · exact ⟨(vsFixedB_iff _).mp hfix, hv⟩
          · have h2 := List.all_eq_true.mp hall bb hmem
            rw [Bool.and_eq_true, beq_iff_eq] at h2
            exact ⟨(vsFixedB_iff _).mp h2.1, by rw [h2.2, hv]⟩
        · intro h
          have h0 := h b0 (List.mem_cons_self b0 rest)
          constructor
          · rw [h0.2]
            exact Int.natCast_nonneg v
          · exact_mod_cast h0.2
      · rw [if_neg hall]
        constructor
        · rintro ⟨h0le, _⟩
          exact absurd h0le (by norm_num)
        · intro h
          exfalso
          apply hall
          rw [List.all_eq_true]
          intro bb hmem
          have hb := h bb (List.mem_cons_of_mem b0 hmem)
          have h0 := h b0 (List.mem_cons_self b0 rest)
          rw [Bool.and_eq_true, beq_iff_eq]
          exact ⟨(vsFixedB_iff _).mpr hb.1, by rw [hb.2, h0.2]⟩
    · rw [if_neg hfix]
      constructor
      · rintro ⟨h0le, _⟩
        exact absurd h0le (by norm_num)
      · intro h
        exact absurd ((vsFixedB_iff _).mpr (h b0 (List.mem_cons_self b0 rest)).1) hfix

/-- Pheromone entry of ClampPheromone on an MMAS colony, in range. -/
lemma clampPheromone_pher (c : Colony) (ht : c.type = 1) (i j : ℕ)
    (hi : i < c.numCells) (hj : j < c.valuesPerCell) :
    (ClampPheromone c).pher i j = clampEntry c (c.pher i j) := by
  unfold ClampPheromone
  rw [if_pos ht]
  simp only
  rw [if_pos ⟨hi, hj⟩]

/-- Concrete order-2 board whose cell 0 is fixed to index 0. -/
def pprBoardW : Board :=
  Board.mk 2
    [{0}, {0, 1, 2, 3}, {0, 1, 2, 3}, {0, 1, 2, 3},
     {0, 1, 2, 3}, {0, 1, 2, 3}, {0, 1, 2, 3}, {0, 1, 2, 3},
     {0, 1, 2, 3}, {0, 1, 2, 3}, {0, 1, 2, 3}, {0, 1, 2, 3},
     {0, 1, 2, 3}, {0, 1, 2, 3}, {0, 1, 2, 3}, {0, 1, 2, 3}] 1 0

/-- Concrete MMAS colony for a 4x4 puzzle: 16 cells, 4 values per cell,
zero pheromone, bounds [0, 100]. -/
def pprColonyW : Colony :=
  { pher := fun _ _ => 0, numCells := 16, valuesPerCell := 4, bestSol := pprBoardW,
    bestPher := 1, bestVal := 16, tauMin := 0, tauMax := 100, tau0 := 1,
    lastImproveIter := 0, type := 1 }

/-- The reinforcement magnitude at iteration 0 on a 16-cell puzzle is
exp(0)/16 = 1/16. -/
lemma tauPubOf_zero_sixteen : tauPubOf 0 16 = 1 / 16 := by
  unfold tauPubOf
  norm_num

/-- C3 counterexample: on a 4x4 puzzle (unit size 4, 16 cells) the
reinforcement actually added at the consensus cell is exp(-iter)/16 —
exp(-iter)/numCells — which at iter=0 is 1/16, not the claimed
exp(-iter)/N = 1/4 for N = 4 the unit size. -/
theorem publicPath_claim_counterexample :
    (ApplyPublicPathRecommendation 0 [pprBoardW] 16 pprColonyW).pher 0 0
      = tauPubOf 0 16 ∧
    tauPubOf 0 16 ≠ Real.exp (-((0 : ℕ) : ℝ)) / ((pprColonyW.valuesPerCell : ℕ) : ℝ) := by
  constructor
  · unfold ApplyPublicPathRecommendation
    rw [if_neg (by simp : ¬([pprBoardW] = ([] : List Board)))]
    rw [clampPheromone_pher]
    · have hcond : (0 < 16 ∧ 0 ≤ publicIdxAt [pprBoardW] 0 ∧
          ((0 : ℕ) : Int) = publicIdxAt [pprBoardW] 0) := by
        refine ⟨by norm_num, ?_, ?_⟩
        · show (0 : Int) ≤ publicIdxAt [pprBoardW] 0
          decide
        · show ((0 : ℕ) : Int) = publicIdxAt [pprBoardW] 0
          decide
      show clampEntry pprColonyW
          (if 0 < 16 ∧ 0 ≤ publicIdxAt [pprBoardW] 0 ∧
              ((0 : ℕ) : Int) = publicIdxAt [pprBoardW] 0
           then pprColonyW.pher 0 0 + tauPubOf 0 16
           else pprColonyW.pher 0 0) = tauPubOf 0 16
      rw [if_pos hcond]
      have hp0 : pprColonyW.pher 0 0 = 0 := rfl
      rw [hp0, zero_add]
      unfold clampEntry
      rw [tauPubOf_zero_sixteen]
      norm_num [pprColonyW]
    · rfl
    · norm_num [pprColonyW]
    · norm_num [pprColonyW]
  · rw [tauPubOf_zero_sixteen]
    have : ((pprColonyW.valuesPerCell : ℕ) : ℝ) = 4 := by norm_num [pprColonyW]
    rw [this]
    norm_num

/-- C3 (amended): the reinforcement magnitude is exp(-iter)/numCells —
the denominator is the cell count passed as nc, not the unit size — and
it is added exactly at the entries (cell, v) on which every ACS best
solution agrees (cell fixed to v in all of them), after which the MMAS
matrix is clamped; entries of non-consensus cells are clamped
unchanged. -/
theorem publicPath_amended (iter : ℕ) (acsBests : List Board) (nc : ℕ) (m : Colony)
    (hne : acsBests ≠ []) (ht : m.type = 1) (hnc : nc = m.numCells)
    (cell v : ℕ) (hcell : cell < m.numCells) (hv : v < m.valuesPerCell) :
    (ApplyPublicPathRecommendation iter acsBests nc m).pher cell v
      = clampEntry m (m.pher cell v +
          (if ∀ bb ∈ acsBests, vsFixed (bb.getCell cell) ∧ vsIndex (bb.getCell cell) = v
           then tauPubOf iter nc else 0)) := by
  unfold ApplyPublicPathRecommendation
  rw [if_neg hne]
  rw [clampPheromone_pher]
  · show clampEntry m
        (if cell < nc ∧ 0 ≤ publicIdxAt acsBests cell ∧
            ((v : ℕ) : Int) = publicIdxAt acsBests cell
         then m.pher cell v + tauPubOf iter nc
         else m.pher cell v) = _
    by_cases hu : ∀ bb ∈ acsBests,
        vsFixed (bb.getCell cell) ∧ vsIndex (bb.getCell cell) = v
    · have hc : cell < nc ∧ 0 ≤ publicIdxAt acsBests cell ∧
          ((v : ℕ) : Int) = publicIdxAt acsBests cell := by
        have hs := (publicIdxAt_spec acsBests hne cell v).mpr hu
        exact ⟨hnc ▸ hcell, hs.1, hs.2.symm⟩
      rw [if_pos hc, if_pos hu]
    · have hc : ¬(cell < nc ∧ 0 ≤ publicIdxAt acsBests cell ∧
          ((v : ℕ) : Int) = publicIdxAt acsBests cell) := by
        rintro ⟨_, h2, h3⟩
        exact hu ((publicIdxAt_spec acsBests hne cell v).mp ⟨h2, h3.symm⟩)
      rw [if_neg hc, if_neg hu, add_zero]
  · exact ht
  · exact hcell
  · exact hv

/-- C3 amended-claim witness: the amended theorem applied at iteration 0
on the concrete 4x4 colony, consensus cell 0, value 0. -/
theorem publicPath_amended_witness :
    (([pprBoardW] : List Board) ≠ [] ∧ pprColonyW.type = 1 ∧
     (16 : ℕ) = pprColonyW.numCells ∧ 0 < pprColonyW.numCells ∧
     0 < pprColonyW.valuesPerCell) ∧
    (ApplyPublicPathRecommendation 0 [pprBoardW] 16 pprColonyW).pher 0 0
      = clampEntry pprColonyW (pprColonyW.pher 0 0 +
          (if ∀ bb ∈ ([pprBoardW] : List Board),
              vsFixed (bb.getCell 0) ∧ vsIndex (bb.getCell 0) = 0
           then tauPubOf 0 16 else 0)) :=
  ⟨⟨by simp, rfl, by norm_num [pprColonyW], by norm_num [pprColonyW],
    by norm_num [pprColonyW]⟩,
   publicPath_amended 0 [pprBoardW] 16 pprColonyW (by simp) rfl
     (by norm_num [pprColonyW]) 0 0 (by norm_num [pprColonyW])
     (by norm_num [pprColonyW])⟩

/-!
Claim C7: entropy bounds. First the equivalence properties of
BoardsEqual and the combinatorics of the grouping loop.
-/

/-- Characterization of BoardsEqual. -/
lemma boardsEqual_iff (a b : Board) :
    boardsEqual a b = true ↔
      a.cellCount = b.cellCount ∧
      ∀ i < a.cellCount,
        vsFixedB (a.getCell i) = vsFixedB (b.getCell i) ∧
        (vsFixedB (a.getCell i) = true →
          vsIndex (a.getCell i) = vsIndex (b.getCell i)) := by
  unfold boardsEqual
  rw [Bool.and_eq_true, beq_iff_eq, List.all_eq_true]
  constructor
  · rintro ⟨h1, h2⟩
    refine ⟨h1, fun i hi => ?_⟩
    have h3 := h2 i (List.mem_range.mpr hi)
    rw [Bool.and_eq_true, beq_iff_eq, Bool.or_eq_true, Bool.not_eq_true'] at h3
    refine ⟨h3.1, fun hf => ?_⟩
    rcases h3.2 with h5 | h5
    · rw [hf] at h5; cases h5
    · exact beq_iff_eq.mp h5
  · rintro ⟨h1, h2⟩
    refine ⟨h1, fun i hi => ?_⟩
    have h3 := h2 i (List.mem_range.mp hi)
    rw [Bool.and_eq_true, beq_iff_eq, Bool.or_eq_true, Bool.not_eq_true']
    refine ⟨h3.1, ?_⟩
    by_cases hf : vsFixedB (a.getCell i) = true
    · exact Or.inr (beq_iff_eq.mpr (h3.2 hf))
    · exact Or.inl (Bool.not_eq_true _ ▸ hf)

/-- BoardsEqual is reflexive. -/
lemma boardsEqual_refl (a : Board) : boardsEqual a a = true :=
  (boardsEqual_iff a a).mpr ⟨rfl, fun _ _ => ⟨rfl, fun _ => rfl⟩⟩

/-- BoardsEqual is symmetric. -/
lemma boardsEqual_symm {a b : Board} (h : boardsEqual a b = true) :
    boardsEqual b a = true := by
  rw [boardsEqual_iff] at h ⊢
  obtain ⟨h1, h2⟩ := h
  refine ⟨h1.symm, fun i hi => ?_⟩
  have h3 := h2 i (h1 ▸ hi)
  exact ⟨h3.1.symm, fun hf => (h3.2 (h3.1.trans hf)).symm⟩

/-- BoardsEqual is transitive. -/
lemma boardsEqual_trans {a b c : Board} (hab : boardsEqual a b = true)
    (hbc : boardsEqual b c = true) : boardsEqual a c = true := by
  rw [boardsEqual_iff] at hab hbc ⊢
  obtain ⟨h1, h2⟩ := hab
  obtain ⟨h3, h4⟩ := hbc
  refine ⟨h1.trans h3, fun i hi => ?_⟩
  have h5 := h2 i hi
  have h6 := h4 i (h1 ▸ hi)
  refine ⟨h5.1.trans h6.1, fun hf => ?_⟩
  exact (h5.2 hf).trans (h6.2 (h5.1 ▸ hf))

/-- addToGroups increases the total count by one. -/
lemma addToGroups_sum (bb : Board) :
    ∀ g : List (Board × ℕ),
      ((addToGroups g bb).map Prod.snd).sum = (g.map Prod.snd).sum + 1 := by
  intro g
  induction g with
  | nil => rfl
  | cons hd t ih =>
    obtain ⟨rep, cnt⟩ := hd
    unfold addToGroups
    split_ifs with h
    · simp only [List.map_cons, List.sum_cons]
      omega
    · simp only [List.map_cons, List.sum_cons, ih]
      omega

/-- addToGroups keeps every group count at least one. -/
lemma addToGroups_pos (bb : Board) :
    ∀ g : List (Board × ℕ), (∀ x ∈ g, 1 ≤ x.2) →
      ∀ x ∈ addToGroups g bb, 1 ≤ x.2 := by
  intro g
  induction g with
  | nil =>
    intro _ x hx
    rw [show addToGroups [] bb = [(bb, 1)] from rfl] at hx
    rcases List.mem_singleton.mp hx with rfl
    exact le_refl 1
  | cons hd t ih =>
    intro h x hx
    obtain ⟨rep, cnt⟩ := hd
    unfold addToGroups at hx
    split_ifs at hx with heq
    · rcases List.mem_cons.mp hx with h3 | hx2
      · have h4 := h (rep, cnt) (List.mem_cons_self _ _)
        rw [h3]
        simp only [Prod.snd]
        omega
      · exact h x (List.mem_cons_of_mem _ hx2)
    · rcases List.mem_cons.mp hx with h3 | hx2
      · rw [h3]
        exact h (rep, cnt) (List.mem_cons_self _ _)
      · exact ih (fun y hy => h y (List.mem_cons_of_mem _ hy)) x hx2

/-- addToGroups preserves the existing representative boards. -/
lemma addToGroups_rep_mem (bb r : Board) :
    ∀ g : List (Board × ℕ), r ∈ g.map Prod.fst →
      r ∈ (addToGroups g bb).map Prod.fst := by
  intro g
  induction g with
  | nil => intro h; cases h
  | cons hd t ih =>
    intro h
    obtain ⟨rep, cnt⟩ := hd
    rw [List.map_cons, List.mem_cons] at h
    unfold addToGroups
    split_ifs with heq
    · rw [List.map_cons, List.mem_cons]
      exact h
    · rw [List.map_cons, List.mem_cons]
      rcases h with h | h
      · exact Or.inl h
      · exact Or.inr (ih h)

/-- The inserted board is equal to some representative afterwards. -/
lemma addToGroups_self_rep (bb : Board) :
    ∀ g : List (Board × ℕ),
      ∃ r ∈ (addToGroups g bb).map Prod.fst, boardsEqual bb r = true := by
  intro g
  induction g with
  | nil => exact ⟨bb, by simp [addToGroups], boardsEqual_refl bb⟩
  | cons hd t ih =>
    obtain ⟨rep, cnt⟩ := hd
    unfold addToGroups
    split_ifs with heq
    · exact ⟨rep, by simp, heq⟩
    · obtain ⟨r, hr, he⟩ := ih
      exact ⟨r, by simp only [List.map_cons, List.mem_cons]; exact Or.inr hr, he⟩

/-- The grouping fold preserves representatives. -/
lemma foldl_rep_mono (r : Board) :
    ∀ (boards : List Board) (g : List (Board × ℕ)), r ∈ g.map Prod.fst →
      r ∈ ((boards.foldl addToGroups g).map Prod.fst) := by
  intro boards
  induction boards with
  | nil => intro g h; simpa using h
  | cons hd t ih =>
    intro g h
    simp only [List.foldl_cons]
    exact ih (addToGroups g hd) (addToGroups_rep_mem hd r g h)

/-- Total group count of the grouping fold. -/
lemma foldl_groups_sum (boards : List Board) :
    ∀ g : List (Board × ℕ),
      ((boards.foldl addToGroups g).map Prod.snd).sum
        = (g.map Prod.snd).sum + boards.length := by
  induction boards with
  | nil => intro g; simp
  | cons hd t ih =>
    intro g
    simp only [List.foldl_cons, List.length_cons]
    rw [ih (addToGroups g hd), addToGroups_sum]
    omega

/-- The group counts of groupSolutions sum to the number of boards. -/
lemma groupSolutions_sum (boards : List Board) :
    ((groupSolutions boards).map Prod.snd).sum = boards.length := by
  unfold groupSolutions
  rw [foldl_groups_sum]
  simp

/-- Every group count of groupSolutions is at least one. -/
lemma groupSolutions_pos (boards : List Board) :
    ∀ x ∈ groupSolutions boards, 1 ≤ x.2 := by
  unfold groupSolutions
  suffices h : ∀ g : List (Board × ℕ), (∀ x ∈ g, 1 ≤ x.2) →
      ∀ x ∈ boards.foldl addToGroups g, 1 ≤ x.2 by
    exact h [] (by intro x hx; cases hx)
  induction boards with
  | nil => intro g hg; simpa using hg
  | cons hd t ih =>
    intro g hg
    simp only [List.foldl_cons]
    exact ih (addToGroups g hd) (addToGroups_pos hd g hg)

/-- Every input board is BoardsEqual to some representative. -/
lemma groupSolutions_rep (boards : List Board) :
    ∀ bb ∈ boards, ∃ r ∈ (groupSolutions boards).map Prod.fst,
      boardsEqual bb r = true := by
  unfold groupSolutions
  suffices h : ∀ g : List (Board × ℕ), ∀ bb ∈ boards,
      ∃ r ∈ (boards.foldl addToGroups g).map Prod.fst, boardsEqual bb r = true by
    exact h []
  induction boards with
  | nil => intro g bb hbb; cases hbb
  | cons hd t ih =>
    intro g bb hbb
    simp only [List.foldl_cons]
    rcases List.mem_cons.mp hbb with rfl | hmem
    · obtain ⟨r, hr, he⟩ := addToGroups_self_rep bb g
      exact ⟨r, foldl_rep_mono r t (addToGroups g bb) hr, he⟩
    · exact ih (addToGroups g hd) bb hmem

/-- When every later board equals b0, the fold keeps a single group. -/
lemma foldl_single_group (b0 : Board) :
    ∀ (l : List Board) (c : ℕ), (∀ bb ∈ l, boardsEqual bb b0 = true) →
      l.foldl addToGroups [(b0, c)] = [(b0, c + l.length)] := by
  intro l
  induction l with
  | nil => intro c _; simp
  | cons hd t ih =>
    intro c hall
    simp only [List.foldl_cons]
    have h1 : addToGroups [(b0, c)] hd = [(b0, c + 1)] := by
      unfold addToGroups
      rw [if_pos (hall hd (List.mem_cons_self _ _))]
    rw [h1, ih (c + 1) (fun bb hbb => hall bb (List.mem_cons_of_mem _ hbb))]
    simp only [List.length_cons]
    have hc : c + 1 + t.length = c + (t.length + 1) := by omega
    rw [hc]

/-- groupSolutions of an all-equal list is one group of full size. -/
lemma groupSolutions_all_equal (b0 : Board) (rest : List Board)
    (h : ∀ bb ∈ rest, boardsEqual bb b0 = true) :
    groupSolutions (b0 :: rest) = [(b0, 1 + rest.length)] := by
  unfold groupSolutions
  simp only [List.foldl_cons]
  rw [show addToGroups [] b0 = [(b0, 1)] from rfl, foldl_single_group b0 rest 1 h]

/-- A list of counts that are all at least one sums to at least its
length. -/
lemma length_le_sum_counts :
    ∀ l : List (Board × ℕ), (∀ y ∈ l, 1 ≤ y.2) →
      l.length ≤ (l.map Prod.snd).sum := by
  intro l
  induction l with
  | nil => intro _; simp
  | cons hd t ih =>
    intro h
    simp only [List.map_cons, List.sum_cons, List.length_cons]
    have hd1 : 1 ≤ hd.2 := h hd (List.mem_cons_self _ _)
    have ht := ih (fun y hy => h y (List.mem_cons_of_mem _ hy))
    omega

/-- With at least two groups of positive counts, each count is strictly
below the total. -/
lemma count_add_one_le_sum (l : List (Board × ℕ)) (h1 : ∀ y ∈ l, 1 ≤ y.2)
    (hlen : 2 ≤ l.length) (x : Board × ℕ) (hx : x ∈ l) :
    x.2 + 1 ≤ (l.map Prod.snd).sum := by
  obtain ⟨s, t, rfl⟩ := List.append_of_mem hx
  rw [List.map_append, List.sum_append, List.map_cons, List.sum_cons]
  have hs : s.length ≤ (s.map Prod.snd).sum :=
    length_le_sum_counts s (fun y hy => h1 y (List.mem_append_left _ hy))
  have ht : t.length ≤ (t.map Prod.snd).sum :=
    length_le_sum_counts t
      (fun y hy => h1 y (List.mem_append_right _ (List.mem_cons_of_mem _ hy)))
  have hlen2 : (s ++ x :: t).length = s.length + t.length + 1 := by
    simp only [List.length_append, List.length_cons]
    omega
  omega

/-- One summand of ComputeEntropy: p * log2 p guarded by p > 0, with
p the group count over the ant count M. -/
noncomputable def entropyTerm (M : ℕ) (g : Board × ℕ) : ℝ :=
  if ((g.2 : ℝ) / (M : ℝ)) > 0
  then ((g.2 : ℝ) / (M : ℝ)) * Real.logb 2 ((g.2 : ℝ) / (M : ℝ)) else 0

/-- ComputeEntropy on a non-empty ant list as a sum of entropy terms. -/
lemma computeEntropy_eq (boards : List Board) (hne : boards ≠ []) :
    ComputeEntropy boards
      = -(((groupSolutions boards).map (entropyTerm boards.length)).sum) := by
  simp only [ComputeEntropy]
  rw [if_neg (by simpa using hne)]
  rfl

/-- ComputeEntropy of an all-equal non-empty list is zero. -/
lemma computeEntropy_all_equal (b0 : Board) (rest : List Board)
    (h : ∀ bb ∈ rest, boardsEqual bb b0 = true) :
    ComputeEntropy (b0 :: rest) = 0 := by
  rw [computeEntropy_eq (b0 :: rest) (by simp)]
  rw [groupSolutions_all_equal b0 rest h]
  have hlen : ((1 + rest.length : ℕ) : ℝ) = (((b0 :: rest).length : ℕ) : ℝ) := by
    push_cast [List.length_cons]
    ring
  have hMpos : (0 : ℝ) < (((b0 :: rest).length : ℕ) : ℝ) := by
    have : 0 < (b0 :: rest).length := by simp
    exact_mod_cast this
  simp only [List.map_cons, List.map_nil, List.sum_cons, List.sum_nil, entropyTerm]
  rw [hlen, div_self (ne_of_gt hMpos)]
  rw [if_pos (by norm_num : (1 : ℝ) > 0)]
  rw [Real.logb_one]
  ring

/-- C7: for a colony with M at least 1 ants, the solution entropy lies
in [0, log2 M], and it is zero exactly when all working boards are
identical in the sense of BoardsEqual (same fixed flag everywhere and
same index on fixed cells). -/
theorem computeEntropy_bounds (boards : List Board) (hM : 1 ≤ boards.length) :
    0 ≤ ComputeEntropy boards ∧
    ComputeEntropy boards ≤ Real.logb 2 (boards.length : ℝ) ∧
    (ComputeEntropy boards = 0 ↔
      ∀ a ∈ boards, ∀ bb ∈ boards, boardsEqual a bb = true) := by
  have hne : boards ≠ [] := by
    intro h
    rw [h] at hM
    simp at hM
  have hMpos : (0 : ℝ) < (boards.length : ℝ) := by
    have : 0 < boards.length := hM
    exact_mod_cast this
  have hppos : ∀ g ∈ groupSolutions boards, 0 < (g.2 : ℝ) / (boards.length : ℝ) := by
    intro g hg
    apply div_pos _ hMpos
    have := groupSolutions_pos boards g hg
    exact_mod_cast this
  have hcount : ∀ g ∈ groupSolutions boards, g.2 ≤ boards.length := by
    intro g hg
    have h1 : g.2 ∈ (groupSolutions boards).map Prod.snd :=
      List.mem_map_of_mem Prod.snd hg
    have h2 := List.le_sum_of_mem h1
    rwa [groupSolutions_sum] at h2
  have hple : ∀ g ∈ groupSolutions boards, (g.2 : ℝ) / (boards.length : ℝ) ≤ 1 := by
    intro g hg
    rw [div_le_one hMpos]
    exact_mod_cast hcount g hg
  have hmap : (groupSolutions boards).map (entropyTerm boards.length)
      = (groupSolutions boards).map (fun g =>
          ((g.2 : ℝ) / (boards.length : ℝ))
            * Real.logb 2 ((g.2 : ℝ) / (boards.length : ℝ))) :=
    List.map_congr_left (fun g hg => if_pos (hppos g hg))
  have hsum1 : ((groupSolutions boards).map
      (fun g => (g.2 : ℝ) / (boards.length : ℝ))).sum = 1 := by
    have h1 : (groupSolutions boards).map (fun g => (g.2 : ℝ) / (boards.length : ℝ))
        = (groupSolutions boards).map (fun g => (g.2 : ℝ) * (1 / (boards.length : ℝ))) :=
      List.map_congr_left (fun g _ => (mul_one_div _ _).symm)
    rw [h1, listSumMapMulRight]
    have h2 : (groupSolutions boards).map (fun g => ((g.2 : ℕ) : ℝ))
        = ((groupSolutions boards).map Prod.snd).map (fun n => ((n : ℕ) : ℝ)) := by
      rw [List.map_map]
      rfl
    rw [h2, ← Nat.cast_list_sum, groupSolutions_sum]
    field_simp
  have hEeq := computeEntropy_eq boards hne
  have hnonneg : 0 ≤ ComputeEntropy boards := by
    rw [hEeq, hmap]
    have h0 : ((groupSolutions boards).map (fun g =>
        ((g.2 : ℝ) / (boards.length : ℝ))
          * Real.logb 2 ((g.2 : ℝ) / (boards.length : ℝ)))).sum
        ≤ ((groupSolutions boards).map (fun _ => (0 : ℝ))).sum := by
      apply List.sum_le_sum
      intro g hg
      have hlogb := Real.logb_nonpos one_lt_two (le_of_lt (hppos g hg)) (hple g hg)
      have := mul_le_mul_of_nonneg_left hlogb (le_of_lt (hppos g hg))
      simpa using this
    have h1 : ((groupSolutions boards).map (fun _ => (0 : ℝ))).sum = 0 := by
      rw [listSumMapConst]
      ring
    linarith [h0, h1.le]
  refine ⟨hnonneg, ?_, ?_⟩
  · rw [hEeq, hmap, neg_le]
    have hpt : ∀ g ∈ groupSolutions boards,
        ((g.2 : ℝ) / (boards.length : ℝ)) * Real.logb 2 (1 / (boards.length : ℝ))
          ≤ ((g.2 : ℝ) / (boards.length : ℝ))
              * Real.logb 2 ((g.2 : ℝ) / (boards.length : ℝ)) := by
      intro g hg
      apply mul_le_mul_of_nonneg_left _ (le_of_lt (hppos g hg))
      apply Real.logb_le_logb_of_le one_lt_two (by positivity)
      have h2 : (1 : ℝ) ≤ (g.2 : ℝ) := by
        exact_mod_cast groupSolutions_pos boards g hg
      gcongr
    calc -(Real.logb 2 (boards.length : ℝ))
        = Real.logb 2 (1 / (boards.length : ℝ)) := by
          rw [one_div, Real.logb_inv]
      _ = 1 * Real.logb 2 (1 / (boards.length : ℝ)) := (one_mul _).symm
      _ = ((groupSolutions boards).map
            (fun g => (g.2 : ℝ) / (boards.length : ℝ))).sum
            * Real.logb 2 (1 / (boards.length : ℝ)) := by rw [hsum1]
      _ = ((groupSolutions boards).map (fun g =>
            ((g.2 : ℝ) / (boards.length : ℝ))
              * Real.logb 2 (1 / (boards.length : ℝ)))).sum :=
          (listSumMapMulRight _ _ _).symm
      _ ≤ _ := List.sum_le_sum hpt
  · constructor
    · intro hE0
      by_contra hneq
      push_neg at hneq
      obtain ⟨a, ha, b, hb, hab⟩ := hneq
      have hGne : groupSolutions boards ≠ [] := by
        intro h
        have hsum := groupSolutions_sum boards
        rw [h] at hsum
        simp at hsum
        omega
      have hGlen : 2 ≤ (groupSolutions boards).length := by
        by_contra hlt
        push_neg at hlt
        have hpos1 : 1 ≤ (groupSolutions boards).length :=
          List.length_pos.mpr hGne
        have hone : (groupSolutions boards).length = 1 := by omega
        obtain ⟨q, hq⟩ := List.length_eq_one.mp hone
        obtain ⟨ra, hra, hea⟩ := groupSolutions_rep boards a ha
        obtain ⟨rb, hrb, heb⟩ := groupSolutions_rep boards b hb
        rw [hq] at hra hrb
        simp only [List.map_cons, List.map_nil, List.mem_singleton] at hra hrb
        rw [hra] at hea
        rw [hrb] at heb
        exact hab (boardsEqual_trans hea (boardsEqual_symm heb))
      have hterm : ∀ g ∈ groupSolutions boards,
          0 < -(((g.2 : ℝ) / (boards.length : ℝ))
            * Real.logb 2 ((g.2 : ℝ) / (boards.length : ℝ))) := by
        intro g hg
        have hlt1 : (g.2 : ℝ) / (boards.length : ℝ) < 1 := by
          rw [div_lt_one hMpos]
          have := count_add_one_le_sum (groupSolutions boards)
            (groupSolutions_pos boards) hGlen g hg
          rw [groupSolutions_sum] at this
          exact_mod_cast Nat.lt_of_succ_le this
        have hlogb := Real.logb_neg one_lt_two (hppos g hg) hlt1
        exact neg_pos.mpr (mul_neg_of_pos_of_neg (hppos g hg) hlogb)
      have hpos : 0 < ((groupSolutions boards).map (fun g =>
          -(((g.2 : ℝ) / (boards.length : ℝ))
            * Real.logb 2 ((g.2 : ℝ) / (boards.length : ℝ))))).sum := by
        apply List.sum_pos
        · intro x hx
          obtain ⟨g, hg, rfl⟩ := List.mem_map.mp hx
          exact hterm g hg
        · intro h
          rw [List.map_eq_nil_iff] at h
          exact hGne h
      rw [listSumMapNeg] at hpos
      rw [hEeq, hmap] at hE0
      linarith
    · intro hall
      obtain ⟨b0, rest, rfl⟩ := List.exists_cons_of_ne_nil hne
      exact computeEntropy_all_equal b0 rest
        (fun bb hbb => hall bb (List.mem_cons_of_mem _ hbb) b0 (List.mem_cons_self _ _))

/-- C7 witness: a two-ant colony with identical boards has 1 ≤ M and its
entropy satisfies both bounds (it is in fact zero). -/
theorem computeEntropy_bounds_witness :
    1 ≤ ([boardW, boardW] : List Board).length ∧
    0 ≤ ComputeEntropy [boardW, boardW] ∧
    ComputeEntropy [boardW, boardW]
      ≤ Real.logb 2 ((([boardW, boardW] : List Board).length : ℕ) : ℝ) :=
  ⟨by simp,
   (computeEntropy_bounds [boardW, boardW] (by simp)).1,
   (computeEntropy_bounds [boardW, boardW] (by simp)).2.1⟩
